import Mathlib

/-
Verification of the season/year title-parsing core (season-parser.ts).

Strings are modelled as `List Char` (the titles in question live in the BMP,
where JavaScript UTF-16 code units and code points coincide on everything the
patterns inspect).  Each regular expression of the source is embedded as an
anchored matcher `Option Char → List Char → Option (Nat × List Char)` taking
the preceding character (for word boundaries) and the remaining input, and
returning the number of consumed characters together with the capture-group
text; `findFirst` turns an anchored matcher into the leftmost-match search
that JavaScript `String.match` / `String.replace` perform.
-/

namespace SeasonParse

set_option maxHeartbeats 1000000

/-- Character class of the JS regex escape for decimal digits (ASCII 0-9). -/
def isDigit (c : Char) : Bool := decide (48 ≤ c.toNat ∧ c.toNat ≤ 57)

/-- Word characters for JS word boundaries: A-Z, a-z, 0-9 and the underscore. -/
def isWordChar (c : Char) : Bool :=
  decide (65 ≤ c.toNat ∧ c.toNat ≤ 90) || decide (97 ≤ c.toNat ∧ c.toNat ≤ 122) ||
  isDigit c || decide (c = '_')

/-- Word-character test on an optional previous character (none = string edge). -/
def isWordOpt : Option Char → Bool
  | none => false
  | some c => isWordChar c

/-- Matches the character class of an upper or lower case letter S. -/
def isS (c : Char) : Bool := decide (c = 'S') || decide (c = 's')

/-- JS whitespace (the regex whitespace class, which is also the set trimmed
by String.prototype.trim): tab through carriage return, space, NBSP, Ogham
space, the U+2000 block, line/paragraph separators, narrow NBSP, medium
mathematical space, ideographic space and BOM. -/
def isWs (c : Char) : Bool :=
  decide (9 ≤ c.toNat ∧ c.toNat ≤ 13) || decide (c.toNat = 32) ||
  decide (c.toNat = 160) || decide (c.toNat = 0x1680) ||
  decide (0x2000 ≤ c.toNat ∧ c.toNat ≤ 0x200A) || decide (c.toNat = 0x2028) ||
  decide (c.toNat = 0x2029) || decide (c.toNat = 0x202F) ||
  decide (c.toNat = 0x205F) || decide (c.toNat = 0x3000) ||
  decide (c.toNat = 0xFEFF)

/-- Character class of the trailing-decoration cleanup rule: middle dot,
hyphen, underscore and whitespace. -/
def isJunk (c : Char) : Bool :=
  decide (c = '·') || decide (c = '-') || decide (c = '_') || isWs c

/-- ASCII lower-casing, the canonicalisation used by a case-insensitive JS
regex on an ASCII pattern (non-ASCII characters are never canonicalised to
ASCII ones). -/
def asciiLower (c : Char) : Char :=
  if 65 ≤ c.toNat ∧ c.toNat ≤ 90 then Char.ofNat (c.toNat + 32) else c

/-- Decimal value of a digit string (the value parseInt assigns to an
all-digit input). -/
def digitsVal (s : List Char) : Nat :=
  s.foldl (fun a c => 10 * a + (c.toNat - 48)) 0

/-- Value of the longest leading digit run; none when there is no leading
digit (JS parseInt returns NaN there). -/
def leadDigits (s : List Char) : Option Int :=
  if (s.takeWhile isDigit).isEmpty then none
  else some ((digitsVal (s.takeWhile isDigit) : Nat) : Int)

/-- Model of JS parseInt with radix 10: skip leading whitespace, read an
optional sign, then the longest leading digit run; none models NaN. -/
def jsParseInt (s : List Char) : Option Int :=
  match s.dropWhile isWs with
  | '+' :: r => leadDigits r
  | '-' :: r => (leadDigits r).map (fun v => -v)
  | r => leadDigits r

/-- The fixed Chinese numeral table of the converter (keys are the single
characters one through ten). -/
def zhVal : Char → Option Nat
  | '一' => some 1
  | '二' => some 2
  | '三' => some 3
  | '四' => some 4
  | '五' => some 5
  | '六' => some 6
  | '七' => some 7
  | '八' => some 8
  | '九' => some 9
  | '十' => some 10
  | _ => none

/-- Whole-string lookup in the numeral table: only single-character strings
can hit a key. -/
def lookupStr : List Char → Option Nat
  | [c] => zhVal c
  | _ => none

/-- Table lookup with the falsy-default 0 used by the compound branches. -/
def lookup0 (s : List Char) : Nat := (lookupStr s).getD 0

/-- Split a string at the first occurrence of the character ten
(String.prototype.indexOf); none when it does not occur. -/
def splitAtTen : List Char → Option (List Char × List Char)
  | [] => none
  | c :: rest =>
    if c = '十' then some ([], rest)
    else (splitAtTen rest).map (fun p => (c :: p.1, p.2))

/-- Embedding of chineseNumberToInt: all-digit strings parse directly; the
character ten is 10; ten-prefixed and ten-suffixed compounds use the table
with falsy default 0; a middle ten splits into tens and units; otherwise a
whole-string table lookup, then parseInt, then the lenient default 1. -/
def chineseNumberToInt (s : List Char) : Int :=
  if !s.isEmpty && s.all isDigit then ((digitsVal s : Nat) : Int)
  else if s = ['十'] then 10
  else if s.head? = some '十' then ((10 + lookup0 (s.drop 1) : Nat) : Int)
  else if s.getLast? = some '十' then ((lookup0 s.dropLast * 10 : Nat) : Int)
  else
    match splitAtTen s with
    | some (tens, units) => ((lookup0 tens * 10 + lookup0 units : Nat) : Int)
    | none =>
      match lookupStr s with
      | some v => (v : Int)
      | none =>
        match jsParseInt s with
        | some p => if p = 0 then 1 else p
        | none => 1

/-- Characters admitted between the season ordinal marker and its closer:
the ten Chinese numerals or an ASCII digit. -/
def inC (c : Char) : Bool :=
  (zhVal c).isSome || isDigit c

/-- Consume a fixed ASCII pattern case-insensitively (the canonicalisation a
case-insensitive JS regex applies to a literal like Season). -/
def eatStrCI : List Char → List Char → Option (List Char)
  | [], s => some s
  | p :: ps, c :: s => if asciiLower c = p then eatStrCI ps s else none
  | _ :: _, [] => none

/-- Anchored matcher for the bracket-wrapped Latin season rule: an opening
square bracket, S or s, one or two digits (greedy), a closing bracket.  The
capture is the inner group including the S. -/
def m1 (_ : Option Char) : List Char → Option (Nat × List Char)
  | '[' :: c1 :: c2 :: rest =>
    if isS c1 && isDigit c2 then
      match rest with
      | c3 :: c4 :: _ =>
        if isDigit c3 then
          if c4 = ']' then some (5, [c1, c2, c3]) else none
        else if c3 = ']' then some (4, [c1, c2]) else none
      | [c3] =>
        if isDigit c3 then none
        else if c3 = ']' then some (4, [c1, c2]) else none
      | [] => none
    else none
  | _ => none

/-- Anchored matcher for the bare Latin season rule: word boundary, S or s,
one or two digits (greedy), word boundary.  The capture is the digit run. -/
def m2 (prev : Option Char) : List Char → Option (Nat × List Char)
  | c0 :: c1 :: rest =>
    if isS c0 && isDigit c1 && !isWordOpt prev then
      match rest with
      | c2 :: rest2 =>
        if isDigit c2 then
          match rest2 with
          | c3 :: _ => if isWordChar c3 then none else some (3, [c1, c2])
          | [] => some (3, [c1, c2])
        else if isWordChar c2 then none else some (2, [c1])
      | [] => some (2, [c1])
    else none
  | _ => none

/-- Anchored matcher for the bracket-wrapped word-form rule: an opening
bracket, the word Season case-insensitively, at least one whitespace, one or
two digits (greedy), a closing bracket. -/
def m3 (_ : Option Char) (s : List Char) : Option (Nat × List Char) :=
  match s with
  | '[' :: rest =>
    match eatStrCI ['s', 'e', 'a', 's', 'o', 'n'] rest with
    | some rest2 =>
      if (rest2.takeWhile isWs).length = 0 then none
      else
        match rest2.drop (rest2.takeWhile isWs).length with
        | d1 :: tail =>
          if isDigit d1 then
            match tail with
            | d2 :: tail2 =>
              if isDigit d2 then
                match tail2 with
                | ']' :: _ => some (7 + (rest2.takeWhile isWs).length + 3, [d1, d2])
                | _ => none
              else if d2 = ']' then some (7 + (rest2.takeWhile isWs).length + 2, [d1]) else none
            | [] => none
          else none
        | [] => none
    | none => none
  | _ => none

/-- Anchored matcher for the bare word-form rule: word boundary, the word
Season case-insensitively, at least one whitespace, one or two digits
(greedy), word boundary. -/
def m4 (prev : Option Char) (s : List Char) : Option (Nat × List Char) :=
  if isWordOpt prev then none
  else
    match eatStrCI ['s', 'e', 'a', 's', 'o', 'n'] s with
    | some rest2 =>
      if (rest2.takeWhile isWs).length = 0 then none
      else
        match rest2.drop (rest2.takeWhile isWs).length with
        | d1 :: tail =>
          if isDigit d1 then
            match tail with
            | d2 :: tail2 =>
              if isDigit d2 then
                match tail2 with
                | c3 :: _ =>
                  if isWordChar c3 then none
                  else some (6 + (rest2.takeWhile isWs).length + 2, [d1, d2])
                | [] => some (6 + (rest2.takeWhile isWs).length + 2, [d1, d2])
              else if isWordChar d2 then none
              else some (6 + (rest2.takeWhile isWs).length + 1, [d1])
            | [] => some (6 + (rest2.takeWhile isWs).length + 1, [d1])
          else none
        | [] => none
    | none => none

/-- Anchored matcher for a bare Chinese rule: the ordinal marker, one or two
characters of the numeral class (greedy), then the given closer (the season
or part character, neither of which belongs to the numeral class). -/
def mZhBare (closer : Char) (_ : Option Char) : List Char → Option (Nat × List Char)
  | d :: x1 :: rest =>
    if d = '第' && inC x1 then
      match rest with
      | y :: rest2 =>
        if y = closer then some (3, [x1])
        else if inC y then
          match rest2 with
          | z :: _ => if z = closer then some (4, [x1, y]) else none
          | [] => none
        else none
      | [] => none
    else none
  | _ => none

/-- Anchored matcher for a bracket-wrapped Chinese rule: an opening bracket,
the ordinal marker, one or two numeral-class characters (greedy), the given
closer, a closing bracket. -/
def mZhBr (closer : Char) (_ : Option Char) : List Char → Option (Nat × List Char)
  | '[' :: d :: x1 :: rest =>
    if d = '第' && inC x1 then
      match rest with
      | y :: rest2 =>
        if y = closer then
          match rest2 with
          | ']' :: _ => some (5, [x1])
          | _ => none
        else if inC y then
          match rest2 with
          | z :: ']' :: _ => if z = closer then some (6, [x1, y]) else none
          | _ => none
        else none
      | [] => none
    else none
  | _ => none

/-- Anchored matcher for a bracket-wrapped four-digit year. -/
def y1 (_ : Option Char) : List Char → Option (Nat × List Char)
  | '[' :: d1 :: d2 :: d3 :: d4 :: c :: _ =>
    if isDigit d1 && isDigit d2 && isDigit d3 && isDigit d4 && c = ']' then
      some (6, [d1, d2, d3, d4])
    else none
  | _ => none

/-- Anchored matcher for a paren-wrapped four-digit year. -/
def y2 (_ : Option Char) : List Char → Option (Nat × List Char)
  | '(' :: d1 :: d2 :: d3 :: d4 :: c :: _ =>
    if isDigit d1 && isDigit d2 && isDigit d3 && isDigit d4 && c = ')' then
      some (6, [d1, d2, d3, d4])
    else none
  | _ => none

/-- Anchored matcher for a bare word-boundary-delimited four-digit year. -/
def y3 (prev : Option Char) : List Char → Option (Nat × List Char)
  | d1 :: d2 :: d3 :: d4 :: rest =>
    if isDigit d1 && isDigit d2 && isDigit d3 && isDigit d4 && !isWordOpt prev then
      match rest with
      | c :: _ => if isWordChar c then none else some (4, [d1, d2, d3, d4])
      | [] => some (4, [d1, d2, d3, d4])
    else none
  | _ => none

/-- Leftmost-match search: try the anchored matcher at every position from
the left, threading the previous character for boundary conditions; on
success return the text before the match, the matched span, the capture and
the text after. -/
def findFirst (m : Option Char → List Char → Option (Nat × List Char)) :
    Option Char → List Char → Option (List Char × List Char × List Char × List Char)
  | prev, [] =>
    match m prev [] with
    | some (_, cap) => some ([], [], cap, [])
    | none => none
  | prev, c :: rest =>
    match m prev (c :: rest) with
    | some (n, cap) => some ([], (c :: rest).take n, cap, (c :: rest).drop n)
    | none =>
      (findFirst m (some c) rest).map (fun r => (c :: r.1, r.2.1, r.2.2.1, r.2.2.2))

/-- The extraction function of the bracket-wrapped Latin rule: re-match the
capture against S-or-s followed by one or two digits and parse the digits. -/
def sInner : List Char → Option Int
  | [] => none
  | c :: rest =>
    if isS c then
      match rest with
      | d1 :: d2 :: _ =>
        if isDigit d1 then
          some ((((if isDigit d2 then digitsVal [d1, d2] else digitsVal [d1]) : Nat) : Int))
        else sInner rest
      | [d1] => if isDigit d1 then some ((digitsVal [d1] : Nat) : Int) else sInner rest
      | [] => sInner rest
    else sInner rest

/-- One entry of the ordered season rule table: an anchored matcher and an
extraction function from the capture to a season number (none models the JS
null that makes the loop fall through to the next rule). -/
structure SPattern where
  m : Option Char → List Char → Option (Nat × List Char)
  ext : List Char → Option Int

/-- The ordered season rule table, in the priority order of the source:
bracketed Latin, bare Latin, bracketed word form, bare word form, bracketed
and bare Chinese season forms, bracketed and bare Chinese part forms. -/
def patterns : List SPattern :=
  [⟨m1, sInner⟩,
   ⟨m2, jsParseInt⟩,
   ⟨m3, jsParseInt⟩,
   ⟨m4, jsParseInt⟩,
   ⟨mZhBr '季', fun cap => some (chineseNumberToInt cap)⟩,
   ⟨mZhBare '季', fun cap => some (chineseNumberToInt cap)⟩,
   ⟨mZhBr '部', fun cap => some (chineseNumberToInt cap)⟩,
   ⟨mZhBare '部', fun cap => some (chineseNumberToInt cap)⟩]

/-- Record of a fired season rule: its index in the table, the extracted
value, and the leftmost-match decomposition (text before, matched span,
capture, text after). -/
structure SMatch where
  idx : Nat
  val : Int
  pre : List Char
  mt : List Char
  cap : List Char
  post : List Char
deriving Repr, DecidableEq

/-- The season rule loop: try each rule in order on the same title; the
first rule whose pattern matches and whose extraction is non-null fires. -/
def seasonLoop (i : Nat) : List SPattern → List Char → Option SMatch
  | [], _ => none
  | p :: ps, t =>
    match findFirst p.m none t with
    | some (pre, mt, cap, post) =>
      match p.ext cap with
      | some v => some ⟨i, v, pre, mt, cap, post⟩
      | none => seasonLoop (i + 1) ps t
    | none => seasonLoop (i + 1) ps t

/-- Remove the leading run of characters satisfying p from the right end. -/
def dropWhileRight (p : Char → Bool) (s : List Char) : List Char :=
  (s.reverse.dropWhile p).reverse

/-- Model of String.prototype.trim: strip leading and trailing whitespace. -/
def trim (s : List Char) : List Char := dropWhileRight isWs (s.dropWhile isWs)

/-- The season extraction step: when a rule fires, record its value and
delete the matched span from the working title (replace of the first match
with the empty string, then trim); otherwise leave the title unchanged. -/
def seasonStep (t : List Char) : Option Int × List Char :=
  match seasonLoop 0 patterns t with
  | some r => (some r.val, trim (r.pre ++ r.post))
  | none => (none, t)

/-- The ordered year pattern list: bracket-wrapped, paren-wrapped, bare. -/
def yearPats : List (Option Char → List Char → Option (Nat × List Char)) :=
  [y1, y2, y3]

/-- The year loop: for each pattern in order against the same title, take
the first match, parse the capture, and accept only a value in the valid
calendar range, deleting the matched span and trimming; on an out-of-range
value fall through to the next pattern class on the unchanged title. -/
def yearLoop : List (Option Char → List Char → Option (Nat × List Char)) →
    List Char → Option Int × List Char
  | [], t => (none, t)
  | p :: ps, t =>
    match findFirst p none t with
    | some (pre, _, cap, post) =>
      match jsParseInt cap with
      | some yv =>
        if 1900 ≤ yv ∧ yv ≤ 2100 then (some yv, trim (pre ++ post))
        else yearLoop ps t
      | none => yearLoop ps t
    | none => yearLoop ps t

/-- The year extraction step over the full pattern list. -/
def yearStep (t : List Char) : Option Int × List Char := yearLoop yearPats t

/-- Anchored matcher for an empty square bracket pair with only whitespace
inside, as removed globally by the cleaner. -/
def emptyBracket : List Char → Option (Nat × List Char)
  | '[' :: rest =>
    let k := (rest.takeWhile isWs).length
    match rest.drop k with
    | ']' :: _ => some (k + 2, [])
    | _ => none
  | _ => none

/-- Anchored matcher for an empty paren pair with only whitespace inside. -/
def emptyParen : List Char → Option (Nat × List Char)
  | '(' :: rest =>
    let k := (rest.takeWhile isWs).length
    match rest.drop k with
    | ')' :: _ => some (k + 2, [])
    | _ => none
  | _ => none

/-- Fuel-driven body of the global removal scan: at each position try the
anchored matcher; on a match of n characters delete them and resume after
the deleted span, otherwise keep the character and move one position right.
The fuel only bounds recursion depth; with fuel at least the length of the
input (as the wrapper below always supplies) it never runs out, because a
step consumes at least one character of input per unit of fuel. -/
def removeAllF (m : List Char → Option (Nat × List Char)) : Nat → List Char → List Char
  | _, [] => []
  | 0, s => s
  | fuel + 1, c :: rest =>
    match m (c :: rest) with
    | some (n, _) =>
      if n = 0 then c :: removeAllF m fuel rest
      else removeAllF m fuel ((c :: rest).drop n)
    | none => c :: removeAllF m fuel rest

/-- Global removal of every non-overlapping match of an anchored matcher,
scanning left to right and resuming after each deleted span (JS replace with
the global flag and an empty replacement). -/
def removeAll (m : List Char → Option (Nat × List Char)) (s : List Char) : List Char :=
  removeAllF m s.length s

/-- Fuel-driven body of the whitespace collapse (same fuel discipline as the
removal scan). -/
def collapseWsF : Nat → List Char → List Char
  | _, [] => []
  | 0, s => s
  | fuel + 1, c :: rest =>
    if isWs c then ' ' :: collapseWsF fuel (rest.dropWhile isWs)
    else c :: collapseWsF fuel rest

/-- Global replacement of every maximal whitespace run by a single space. -/
def collapseWs (s : List Char) : List Char := collapseWsF s.length s

/-- The title cleaner: remove empty bracket pairs, remove empty paren pairs,
collapse whitespace runs to single spaces, strip the trailing decorative
run, and trim. -/
def cleanup (t : List Char) : List Char :=
  trim (dropWhileRight isJunk (collapseWs (removeAll emptyParen (removeAll emptyBracket t))))

/-- The normalizer pre-pass: replace every underscore by a space. -/
def normalizeTitle (s : List Char) : List Char :=
  s.map (fun c => if c = '_' then ' ' else c)

/-- The output record of the parser. -/
structure SeasonInfo where
  cleanTitle : String
  seasonNumber : Option Int
  year : Option Int
  originalTitle : String
deriving Repr, DecidableEq

/-- Embedding of parseSeasonFromTitle: normalize underscores, run the season
rule loop, run the year loop on the reduced title, clean the result, and
return it with the verbatim original. -/
def parseSeasonFromTitle (title : String) : SeasonInfo :=
  let t0 := normalizeTitle title.data
  let r1 := seasonStep t0
  let r2 := yearStep r1.2
  ⟨String.mk (cleanup r2.2), r1.1, r2.1, title⟩

/-- Character image of the pipeline's only non-deletion edits: the
normalizer turns underscores into spaces and the whitespace collapse turns
any whitespace character into a space; all other characters are preserved. -/
def normChar (c : Char) : Char := if c = '_' || isWs c then ' ' else c

theorem findFirst_decomp (m : Option Char → List Char → Option (Nat × List Char)) :
    ∀ (prev : Option Char) (s pre mt cap post : List Char),
    findFirst m prev s = some (pre, mt, cap, post) → s = pre ++ mt ++ post := by
  intro prev s
  induction s generalizing prev with
  | nil =>
    intro pre mt cap post h
    simp only [findFirst] at h
    split at h <;> simp_all
  | cons c rest ih =>
    intro pre mt cap post h
    simp only [findFirst] at h
    split at h
    · rename_i n cap' _
      simp only [Option.some.injEq, Prod.mk.injEq] at h
      obtain ⟨h1, h2, _, h4⟩ := h
      subst h1; subst h2; subst h4
      simp [List.take_append_drop]
    · rw [Option.map_eq_some'] at h
      obtain ⟨r, hr, hmap⟩ := h
      obtain ⟨a, b, d, e⟩ := r
      simp only [Prod.mk.injEq] at hmap
      obtain ⟨h1, h2, _, h4⟩ := hmap
      subst h1; subst h2; subst h4
      have h5 := ih (some c) a b d e hr
      rw [h5]; rfl

theorem findFirst_cap (m : Option Char → List Char → Option (Nat × List Char)) :
    ∀ (prev : Option Char) (s pre mt cap post : List Char),
    findFirst m prev s = some (pre, mt, cap, post) →
    ∃ prev2 s2 n, m prev2 s2 = some (n, cap) := by
  intro prev s
  induction s generalizing prev with
  | nil =>
    intro pre mt cap post h
    simp only [findFirst] at h
    split at h
    · rename_i n cap' heq
      simp only [Option.some.injEq, Prod.mk.injEq] at h
      exact ⟨prev, [], n, by rw [heq, h.2.2.1]⟩
    · simp at h
  | cons c rest ih =>
    intro pre mt cap post h
    simp only [findFirst] at h
    split at h
    · rename_i n cap' heq
      simp only [Option.some.injEq, Prod.mk.injEq] at h
      exact ⟨prev, c :: rest, n, by rw [heq, h.2.2.1]⟩
    · rw [Option.map_eq_some'] at h
      obtain ⟨r, hr, hmap⟩ := h
      obtain ⟨a, b, d, e⟩ := r
      simp only [Prod.mk.injEq] at hmap
      obtain ⟨_, _, h3, _⟩ := hmap
      subst h3
      exact ih (some c) a b d e hr

theorem removal_sublist (pre mt post : List Char) :
    List.Sublist (pre ++ post) (pre ++ mt ++ post) := by
  rw [List.append_assoc]
  exact (List.append_sublist_append_left pre).mpr (List.sublist_append_right mt post)

theorem dropWhileRight_sublist (p : Char → Bool) (s : List Char) :
    List.Sublist (dropWhileRight p s) s := by
  have h := (List.dropWhile_sublist (l := s.reverse) p).reverse
  rwa [List.reverse_reverse] at h

theorem trim_sublist (s : List Char) : List.Sublist (trim s) s :=
  (dropWhileRight_sublist isWs _).trans (List.dropWhile_sublist isWs)

theorem seasonLoop_decomp :
    ∀ (i : Nat) (ps : List SPattern) (t : List Char) (r : SMatch),
    seasonLoop i ps t = some r → t = r.pre ++ r.mt ++ r.post := by
  intro i ps
  induction ps generalizing i with
  | nil => intro t r h; simp [seasonLoop] at h
  | cons p ps ih =>
    intro t r h
    simp only [seasonLoop] at h
    split at h
    · rename_i pre mt cap post heq
      split at h
      · rename_i v hv
        cases h
        exact findFirst_decomp p.m none t pre mt cap post heq
      · exact ih (i + 1) t r h
    · exact ih (i + 1) t r h

theorem seasonStep_snd_sublist (t : List Char) : List.Sublist (seasonStep t).2 t := by
  unfold seasonStep
  split
  · rename_i r hr
    have hd := seasonLoop_decomp 0 patterns t r hr
    exact (trim_sublist _).trans (by rw [hd]; exact removal_sublist r.pre r.mt r.post)
  · exact List.Sublist.refl t

theorem yearLoop_snd_sublist :
    ∀ (ps : List (Option Char → List Char → Option (Nat × List Char))) (t : List Char),
    List.Sublist (yearLoop ps t).2 t := by
  intro ps
  induction ps with
  | nil => intro t; exact List.Sublist.refl t
  | cons p ps ih =>
    intro t
    simp only [yearLoop]
    split
    · rename_i pre mt cap post heq
      split
      · rename_i yv hyv
        split
        · have hd := findFirst_decomp p none t pre mt cap post heq
          exact (trim_sublist _).trans (by rw [hd]; exact removal_sublist pre mt post)
        · exact ih t
      · exact ih t
    · exact ih t

theorem removeAllF_sublist (m : List Char → Option (Nat × List Char)) :
    ∀ (fuel : Nat) (s : List Char), List.Sublist (removeAllF m fuel s) s := by
  intro fuel
  induction fuel with
  | zero => intro s; cases s <;> simp [removeAllF]
  | succ k ih =>
    intro s
    cases s with
    | nil => simp [removeAllF]
    | cons c rest =>
      simp only [removeAllF]
      split
      · rename_i n cap heq
        split
        · exact List.Sublist.cons₂ c (ih rest)
        · exact (ih _).trans (List.drop_sublist n (c :: rest))
      · exact List.Sublist.cons₂ c (ih rest)

theorem removeAll_sublist (m : List Char → Option (Nat × List Char)) (s : List Char) :
    List.Sublist (removeAll m s) s :=
  removeAllF_sublist m s.length s

theorem collapseWsF_sublist_norm :
    ∀ (fuel : Nat) (s : List Char), s.length ≤ fuel → '_' ∉ s →
    List.Sublist (collapseWsF fuel s) (s.map normChar) := by
  intro fuel
  induction fuel with
  | zero =>
    intro s hl _
    have hs : s = [] := List.length_eq_zero.mp (Nat.le_zero.mp hl)
    subst hs
    simp [collapseWsF]
  | succ k ih =>
    intro s hl h
    cases s with
    | nil => simp [collapseWsF]
    | cons c rest =>
      simp only [collapseWsF, List.map_cons]
      split
      · rename_i hw
        have hnc : normChar c = ' ' := by simp [normChar, hw]
        rw [hnc]
        refine List.Sublist.cons₂ ' ' ?_
        have hsub : '_' ∉ rest.dropWhile isWs := fun hm =>
          h (List.mem_cons_of_mem c ((List.dropWhile_sublist isWs).subset hm))
        have hlen : (rest.dropWhile isWs).length ≤ k := by
          have := (List.dropWhile_sublist (l := rest) isWs).length_le
          simp only [List.length_cons] at hl
          omega
        exact (ih _ hlen hsub).trans ((List.dropWhile_sublist isWs).map normChar)
      · rename_i hw
        have hc : ¬ c = '_' := fun hc => h (hc ▸ List.mem_cons_self c rest)
        have hwf : isWs c = false := by revert hw; cases isWs c <;> simp
        have hnc : normChar c = c := by simp [normChar, hc, hwf]
        rw [hnc]
        have hlen : rest.length ≤ k := by simp only [List.length_cons] at hl; omega
        exact List.Sublist.cons₂ c (ih rest hlen (fun hm => h (List.mem_cons_of_mem c hm)))

theorem collapseWs_sublist_norm (s : List Char) (h : '_' ∉ s) :
    List.Sublist (collapseWs s) (s.map normChar) :=
  collapseWsF_sublist_norm s.length s (Nat.le_refl _) h

theorem not_underscore_mem_normalize (l : List Char) : '_' ∉ normalizeTitle l := by
  intro hm
  obtain ⟨c, _, hc⟩ := List.mem_map.mp hm
  split at hc
  · exact absurd hc (by decide)
  · rename_i h; exact h hc

theorem not_underscore_mem_map_normChar (l : List Char) : '_' ∉ l.map normChar := by
  intro hm
  obtain ⟨c, _, hc⟩ := List.mem_map.mp hm
  unfold normChar at hc
  split at hc
  · exact absurd hc (by decide)
  · rename_i hcond
    rw [hc] at hcond
    simp at hcond

theorem map_normChar_normalize (l : List Char) :
    (normalizeTitle l).map normChar = l.map normChar := by
  induction l with
  | nil => rfl
  | cons c rest ih =>
    simp only [normalizeTitle, List.map_cons] at *
    rw [ih]
    congr 1
    by_cases h : c = '_'
    · subst h
      rw [if_pos rfl]
      decide
    · rw [if_neg h]

theorem normalizeTitle_id (l : List Char) (h : '_' ∉ l) : normalizeTitle l = l := by
  induction l with
  | nil => rfl
  | cons c rest ih =>
    simp only [normalizeTitle, List.map_cons]
    have hc : ¬ c = '_' := fun hc => h (hc ▸ List.mem_cons_self c rest)
    rw [if_neg hc]
    have := ih (fun hm => h (List.mem_cons_of_mem c hm))
    simp only [normalizeTitle] at this
    rw [this]

theorem cleanTitle_sublist_norm (t : String) :
    List.Sublist (parseSeasonFromTitle t).cleanTitle.data (t.data.map normChar) := by
  show List.Sublist (cleanup (yearStep (seasonStep (normalizeTitle t.data)).2).2)
    (t.data.map normChar)
  have h1 : List.Sublist (seasonStep (normalizeTitle t.data)).2 (normalizeTitle t.data) :=
    seasonStep_snd_sublist _
  have h12 : List.Sublist (yearStep (seasonStep (normalizeTitle t.data)).2).2
      (normalizeTitle t.data) := (yearLoop_snd_sublist _ _).trans h1
  have hu : List.Sublist
      (removeAll emptyParen (removeAll emptyBracket
        (yearStep (seasonStep (normalizeTitle t.data)).2).2))
      (normalizeTitle t.data) :=
    ((removeAll_sublist _ _).trans (removeAll_sublist _ _)).trans h12
  have hnound : '_' ∉ removeAll emptyParen (removeAll emptyBracket
      (yearStep (seasonStep (normalizeTitle t.data)).2).2) := fun hm =>
    not_underscore_mem_normalize t.data (hu.subset hm)
  have hc := collapseWs_sublist_norm _ hnound
  have hfinal :
      List.Sublist (cleanup (yearStep (seasonStep (normalizeTitle t.data)).2).2)
        ((normalizeTitle t.data).map normChar) := by
    unfold cleanup
    exact ((trim_sublist _).trans (dropWhileRight_sublist _ _)).trans
      (hc.trans (hu.map normChar))
  rwa [map_normChar_normalize] at hfinal

theorem no_underscore_cleanTitle (t : String) :
    '_' ∉ (parseSeasonFromTitle t).cleanTitle.data := fun hm =>
  not_underscore_mem_map_normChar (t.data) ((cleanTitle_sublist_norm t).subset hm)

theorem m1_pos (prev : Option Char) (s : List Char) (n : Nat) (cap : List Char)
    (h : m1 prev s = some (n, cap)) : n ≠ 0 ∧ s ≠ [] := by
  unfold m1 at h
  repeat' split at h
  all_goals (try simp_all)
  all_goals omega

theorem m2_pos (prev : Option Char) (s : List Char) (n : Nat) (cap : List Char)
    (h : m2 prev s = some (n, cap)) : n ≠ 0 ∧ s ≠ [] := by
  unfold m2 at h
  repeat' split at h
  all_goals (try simp_all)
  all_goals omega

theorem m3_pos (prev : Option Char) (s : List Char) (n : Nat) (cap : List Char)
    (h : m3 prev s = some (n, cap)) : n ≠ 0 ∧ s ≠ [] := by
  unfold m3 at h
  repeat' split at h
  all_goals (try simp_all)
  all_goals omega

theorem m4_pos (prev : Option Char) (s : List Char) (n : Nat) (cap : List Char)
    (h : m4 prev s = some (n, cap)) : n ≠ 0 ∧ s ≠ [] := by
  cases s with
  | nil => simp [m4, eatStrCI] at h
  | cons c rest =>
    refine ⟨?_, by simp⟩
    unfold m4 at h
    repeat' split at h
    all_goals (try simp_all)
    all_goals omega

theorem mZhBare_pos (closer : Char) (prev : Option Char) (s : List Char) (n : Nat)
    (cap : List Char) (h : mZhBare closer prev s = some (n, cap)) : n ≠ 0 ∧ s ≠ [] := by
  unfold mZhBare at h
  repeat' split at h
  all_goals (try simp_all)
  all_goals omega

theorem mZhBr_pos (closer : Char) (prev : Option Char) (s : List Char) (n : Nat)
    (cap : List Char) (h : mZhBr closer prev s = some (n, cap)) : n ≠ 0 ∧ s ≠ [] := by
  unfold mZhBr at h
  repeat' split at h
  all_goals (try simp_all)
  all_goals omega

theorem findFirst_mt_ne (m : Option Char → List Char → Option (Nat × List Char))
    (hpos : ∀ prev2 s2 n2 cap2, m prev2 s2 = some (n2, cap2) → n2 ≠ 0 ∧ s2 ≠ []) :
    ∀ (prev : Option Char) (s pre mt cap post : List Char),
    findFirst m prev s = some (pre, mt, cap, post) → mt ≠ [] := by
  intro prev s
  induction s generalizing prev with
  | nil =>
    intro pre mt cap post h
    simp only [findFirst] at h
    split at h
    · rename_i n cap2 heq
      exact absurd rfl (hpos prev [] n cap2 heq).2
    · simp at h
  | cons c rest ih =>
    intro pre mt cap post h
    simp only [findFirst] at h
    split at h
    · rename_i n cap2 heq
      simp only [Option.some.injEq, Prod.mk.injEq] at h
      obtain ⟨_, h2, _, _⟩ := h
      have hn := (hpos prev (c :: rest) n cap2 heq).1
      rw [← h2]
      cases n with
      | zero => exact absurd rfl hn
      | succ k => simp
    · rw [Option.map_eq_some'] at h
      obtain ⟨r, hr, hmap⟩ := h
      obtain ⟨a, b, d, e⟩ := r
      simp only [Prod.mk.injEq] at hmap
      obtain ⟨_, h2, _, _⟩ := hmap
      rw [← h2]
      exact ih (some c) a b d e hr

theorem seasonLoop_mt_ne :
    ∀ (i : Nat) (ps : List SPattern) (t : List Char) (r : SMatch),
    (∀ p ∈ ps, ∀ prev s n cap, p.m prev s = some (n, cap) → n ≠ 0 ∧ s ≠ []) →
    seasonLoop i ps t = some r → r.mt ≠ [] := by
  intro i ps
  induction ps generalizing i with
  | nil => intro t r _ h; simp [seasonLoop] at h
  | cons p ps ih =>
    intro t r hpos h
    simp only [seasonLoop] at h
    split at h
    · rename_i pre mt cap post heq
      split at h
      · rename_i v hv
        cases h
        exact findFirst_mt_ne p.m (hpos p (List.mem_cons_self p ps)) none t pre mt cap post heq
      · exact ih (i + 1) t r (fun q hq => hpos q (List.mem_cons_of_mem p hq)) h
    · exact ih (i + 1) t r (fun q hq => hpos q (List.mem_cons_of_mem p hq)) h

theorem patterns_pos :
    ∀ p ∈ patterns, ∀ prev s n cap, p.m prev s = some (n, cap) → n ≠ 0 ∧ s ≠ [] := by
  intro p hp
  simp only [patterns, List.mem_cons, List.not_mem_nil, or_false] at hp
  rcases hp with rfl | rfl | rfl | rfl | rfl | rfl | rfl | rfl
  · exact m1_pos
  · exact m2_pos
  · exact m3_pos
  · exact m4_pos
  · exact mZhBr_pos '季'
  · exact mZhBare_pos '季'
  · exact mZhBr_pos '部'
  · exact mZhBare_pos '部'

/-- C1, counterexample: the clean title is not in general a subsequence of the
original title.  On the input with an underscore between two letters, the
normalizer replaces the underscore by a space, so the clean title contains a
space character the original never had. -/
theorem c1_counterexample :
    ¬ List.Sublist (parseSeasonFromTitle "A_B").cleanTitle.data ("A_B".data) := by
  intro h
  have hmem : ' ' ∈ (parseSeasonFromTitle "A_B").cleanTitle.data := by decide
  exact absurd (h.subset hmem) (by decide)

/-- C1, amended: the clean title is obtained from the original purely by
deleting characters once underscores and whitespace characters are identified
with the space character: cleanTitle is a subsequence of the original title
with every underscore and every whitespace character replaced by a space; no
other character is ever added, changed or reordered. -/
theorem c1_cleanTitle_subsequence_of_normalized (t : String) :
    List.Sublist (parseSeasonFromTitle t).cleanTitle.data (t.data.map normChar) :=
  cleanTitle_sublist_norm t

/-- C2, counterexample: when the same season token occurs twice, a copy of
the exact matched substring survives into the clean title.  On the doubled
token input, the bare Latin rule (index 1) matches the first occurrence, the
span S01 is removed once, and the clean title is exactly S01 again — which
trivially contains the matched substring. -/
theorem c2_counterexample :
    seasonLoop 0 patterns (normalizeTitle "S01 S01".data) =
      some ⟨1, 1, [], ['S', '0', '1'], ['0', '1'], [' ', 'S', '0', '1']⟩ ∧
    (parseSeasonFromTitle "S01 S01").cleanTitle = "S01" ∧
    ∃ a b, a ++ ['S', '0', '1'] ++ b = (parseSeasonFromTitle "S01 S01").cleanTitle.data :=
  ⟨by decide, by decide, [], [], by decide⟩

/-- C2, amended: the season step deletes exactly the first matched occurrence
of the season token: when a rule fires, the normalized title splits as
pre ++ matched ++ post around the leftmost match, the matched span is
nonempty, and the clean title is computed from trim (pre ++ post); a later
duplicate occurrence of the same substring may survive into the clean
title. -/
theorem c2_first_occurrence_removed (t : String) (r : SMatch)
    (h : seasonLoop 0 patterns (normalizeTitle t.data) = some r) :
    normalizeTitle t.data = r.pre ++ r.mt ++ r.post ∧
    r.mt ≠ [] ∧
    (parseSeasonFromTitle t).cleanTitle =
      String.mk (cleanup ((yearStep (trim (r.pre ++ r.post))).2)) := by
  refine ⟨seasonLoop_decomp 0 patterns _ r h,
    seasonLoop_mt_ne 0 patterns _ r patterns_pos h, ?_⟩
  show String.mk (cleanup ((yearStep (seasonStep (normalizeTitle t.data)).2).2)) = _
  unfold seasonStep
  rw [h]

/-- Witness for the amended C2 theorem at a concrete successful parse. -/
theorem c2_witness :
    normalizeTitle "Breaking Bad S01".data =
      "Breaking Bad ".data ++ "S01".data ++ [] ∧
    ("S01".data : List Char) ≠ [] ∧
    (parseSeasonFromTitle "Breaking Bad S01").cleanTitle =
      String.mk (cleanup ((yearStep (trim ("Breaking Bad ".data ++ []))).2)) :=
  c2_first_occurrence_removed "Breaking Bad S01"
    ⟨1, 1, "Breaking Bad ".data, "S01".data, "01".data, []⟩ (by decide)

theorem leadDigits_nonneg (r : List Char) (v : Int) (h : leadDigits r = some v) : 0 ≤ v := by
  unfold leadDigits at h
  split at h
  · simp at h
  · simp only [Option.some.injEq] at h
    omega

theorem jsParseInt_nonneg (s : List Char) (hm : '-' ∉ s) (v : Int)
    (h : jsParseInt s = some v) : 0 ≤ v := by
  unfold jsParseInt at h
  split at h
  · exact leadDigits_nonneg _ _ h
  · rename_i r heq
    exfalso
    apply hm
    have hmem : '-' ∈ s.dropWhile isWs := by rw [heq]; exact List.mem_cons_self _ _
    exact (List.dropWhile_sublist isWs).subset hmem
  · exact leadDigits_nonneg _ _ h

theorem sInner_nonneg : ∀ (l : List Char) (v : Int), sInner l = some v → 0 ≤ v := by
  intro l
  induction l with
  | nil => intro v h; simp [sInner] at h
  | cons c rest ih =>
    intro v h
    unfold sInner at h
    repeat' split at h
    all_goals
      first
      | exact ih v h
      | (simp only [Option.some.injEq] at h; omega)

theorem chineseNumberToInt_nonneg (s : List Char) (hm : '-' ∉ s) :
    0 ≤ chineseNumberToInt s := by
  unfold chineseNumberToInt
  repeat' split
  all_goals (try omega)
  all_goals exact jsParseInt_nonneg s hm _ (by assumption)

theorem m2_cap (prev : Option Char) (s : List Char) (n : Nat) (cap : List Char)
    (h : m2 prev s = some (n, cap)) : ∀ c ∈ cap, isDigit c := by
  unfold m2 at h
  repeat' split at h
  all_goals (try simp_all)
  all_goals (obtain ⟨hn, hcap⟩ := h; subst hcap; simp_all [List.forall_mem_cons])

theorem m3_cap (prev : Option Char) (s : List Char) (n : Nat) (cap : List Char)
    (h : m3 prev s = some (n, cap)) : ∀ c ∈ cap, isDigit c := by
  unfold m3 at h
  repeat' split at h
  all_goals (try simp_all)
  all_goals (obtain ⟨hn, hcap⟩ := h; subst hcap; simp_all [List.forall_mem_cons])

theorem m4_cap (prev : Option Char) (s : List Char) (n : Nat) (cap : List Char)
    (h : m4 prev s = some (n, cap)) : ∀ c ∈ cap, isDigit c := by
  unfold m4 at h
  repeat' split at h
  all_goals (try simp_all)
  all_goals (obtain ⟨hn, hcap⟩ := h; subst hcap; simp_all [List.forall_mem_cons])

theorem mZhBare_cap (closer : Char) (prev : Option Char) (s : List Char) (n : Nat)
    (cap : List Char) (h : mZhBare closer prev s = some (n, cap)) : ∀ c ∈ cap, inC c := by
  unfold mZhBare at h
  repeat' split at h
  all_goals (try simp_all)
  all_goals (obtain ⟨hn, hcap⟩ := h; subst hcap; simp_all [List.forall_mem_cons])

theorem mZhBr_cap (closer : Char) (prev : Option Char) (s : List Char) (n : Nat)
    (cap : List Char) (h : mZhBr closer prev s = some (n, cap)) : ∀ c ∈ cap, inC c := by
  unfold mZhBr at h
  repeat' split at h
  all_goals (try simp_all)
  all_goals (obtain ⟨hn, hcap⟩ := h; subst hcap; simp_all [List.forall_mem_cons])

theorem isDigit_not_minus (c : Char) (h : isDigit c) : c ≠ '-' := by
  intro he
  subst he
  exact absurd h (by decide)

theorem inC_not_minus (c : Char) (h : inC c) : c ≠ '-' := by
  intro he
  subst he
  exact absurd h (by decide)

theorem seasonLoop_val_nonneg :
    ∀ (i : Nat) (ps : List SPattern) (t : List Char) (r : SMatch),
    (∀ p ∈ ps, ∀ prev s n cap v, p.m prev s = some (n, cap) → p.ext cap = some v → 0 ≤ v) →
    seasonLoop i ps t = some r → 0 ≤ r.val := by
  intro i ps
  induction ps generalizing i with
  | nil => intro t r _ h; simp [seasonLoop] at h
  | cons p ps ih =>
    intro t r hext h
    simp only [seasonLoop] at h
    split at h
    · rename_i pre mt cap post heq
      split at h
      · rename_i v hv
        cases h
        obtain ⟨prev2, s2, n2, hmo⟩ := findFirst_cap p.m none t pre mt cap post heq
        exact hext p (List.mem_cons_self p ps) prev2 s2 n2 cap v hmo hv
      · exact ih (i + 1) t r (fun q hq => hext q (List.mem_cons_of_mem p hq)) h
    · exact ih (i + 1) t r (fun q hq => hext q (List.mem_cons_of_mem p hq)) h

theorem patterns_ext_nonneg :
    ∀ p ∈ patterns, ∀ prev s n cap v, p.m prev s = some (n, cap) → p.ext cap = some v →
    0 ≤ v := by
  intro p hp
  simp only [patterns, List.mem_cons, List.not_mem_nil, or_false] at hp
  rcases hp with rfl | rfl | rfl | rfl | rfl | rfl | rfl | rfl
  · intro prev s n cap v _ hv
    exact sInner_nonneg cap v hv
  · intro prev s n cap v hmo hv
    exact jsParseInt_nonneg cap
      (fun hmem => isDigit_not_minus '-' (m2_cap prev s n cap hmo '-' hmem) rfl) v hv
  · intro prev s n cap v hmo hv
    exact jsParseInt_nonneg cap
      (fun hmem => isDigit_not_minus '-' (m3_cap prev s n cap hmo '-' hmem) rfl) v hv
  · intro prev s n cap v hmo hv
    exact jsParseInt_nonneg cap
      (fun hmem => isDigit_not_minus '-' (m4_cap prev s n cap hmo '-' hmem) rfl) v hv
  · intro prev s n cap v hmo hv
    simp only [Option.some.injEq] at hv
    exact hv ▸ chineseNumberToInt_nonneg cap
      (fun hmem => inC_not_minus '-' (mZhBr_cap '季' prev s n cap hmo '-' hmem) rfl)
  · intro prev s n cap v hmo hv
    simp only [Option.some.injEq] at hv
    exact hv ▸ chineseNumberToInt_nonneg cap
      (fun hmem => inC_not_minus '-' (mZhBare_cap '季' prev s n cap hmo '-' hmem) rfl)
  · intro prev s n cap v hmo hv
    simp only [Option.some.injEq] at hv
    exact hv ▸ chineseNumberToInt_nonneg cap
      (fun hmem => inC_not_minus '-' (mZhBr_cap '部' prev s n cap hmo '-' hmem) rfl)
  · intro prev s n cap v hmo hv
    simp only [Option.some.injEq] at hv
    exact hv ▸ chineseNumberToInt_nonneg cap
      (fun hmem => inC_not_minus '-' (mZhBare_cap '部' prev s n cap hmo '-' hmem) rfl)

/-- C3, counterexample: a present season number of 0 is reachable.  On the
bare token S0 the bare Latin rule matches, parseInt yields 0, and 0 is not
null, so the parse records season number 0, violating the claimed lower
bound of 1. -/
theorem c3_counterexample :
    (parseSeasonFromTitle "S0").seasonNumber = some 0 ∧ ¬ (1 ≤ (0 : Int)) := by
  exact ⟨by decide, by decide⟩

/-- C3, amended: a present season number is always nonnegative; the lower
bound 1 does not hold (season 0 is reachable from a token such as S0), but
no negative season number is ever produced. -/
theorem c3_season_nonneg (t : String) (n : Int)
    (h : (parseSeasonFromTitle t).seasonNumber = some n) : 0 ≤ n := by
  have hs : (seasonStep (normalizeTitle t.data)).1 = some n := h
  unfold seasonStep at hs
  cases hr : seasonLoop 0 patterns (normalizeTitle t.data) with
  | none => rw [hr] at hs; simp at hs
  | some r =>
    rw [hr] at hs
    simp only [Option.some.injEq] at hs
    exact hs ▸ seasonLoop_val_nonneg 0 patterns _ r patterns_ext_nonneg hr

/-- Witness for the amended C3 theorem at a concrete parse with a season. -/
theorem c3_witness : (0 : Int) ≤ 1 :=
  c3_season_nonneg "Breaking Bad S01" 1 (by decide)

theorem yearLoop_range :
    ∀ (ps : List (Option Char → List Char → Option (Nat × List Char))) (t : List Char)
    (y : Int), (yearLoop ps t).1 = some y → 1900 ≤ y ∧ y ≤ 2100 := by
  intro ps
  induction ps with
  | nil => intro t y h; simp [yearLoop] at h
  | cons p ps ih =>
    intro t y h
    simp only [yearLoop] at h
    split at h
    · rename_i pre mt cap post heq
      split at h
      · rename_i yv hyv
        split at h
        · rename_i hrange
          simp at h
          omega
        · exact ih t y h
      · exact ih t y h
    · exact ih t y h

/-- C8: a present year always lies in the valid calendar range; the year
loop accepts a parsed value only after checking 1900 to 2100 inclusive, and
no other year value is ever produced. -/
theorem c8_year_range (t : String) (y : Int)
    (h : (parseSeasonFromTitle t).year = some y) : 1900 ≤ y ∧ y ≤ 2100 :=
  yearLoop_range yearPats _ y h

/-- Witness for the C8 theorem at a concrete parse with a year. -/
theorem c8_witness : (1900 : Int) ≤ 2023 ∧ (2023 : Int) ≤ 2100 :=
  c8_year_range "[2023] Some Movie" 2023 (by decide)

/-- C4: year scanning is pattern-class driven, not occurrence-driven.  When
the season-reduced title has no bracket-wrapped and no paren-wrapped
four-digit match, and the first bare word-boundary-delimited four-digit run
parses to a value outside 1900 to 2100, the year is absent and the title
handed to the cleaner is unchanged by year extraction — even when another,
valid four-digit run occurs later in the same title. -/
theorem c4_year_pattern_class (t : String) (t1 : List Char)
    (ht1 : t1 = (seasonStep (normalizeTitle t.data)).2)
    (h1 : findFirst y1 none t1 = none)
    (h2 : findFirst y2 none t1 = none)
    (h3 : ∀ pre mt cap post, findFirst y3 none t1 = some (pre, mt, cap, post) →
      ∀ yv, jsParseInt cap = some yv → ¬ (1900 ≤ yv ∧ yv ≤ 2100)) :
    yearStep t1 = (none, t1) ∧ (parseSeasonFromTitle t).year = none := by
  have hys : yearStep t1 = (none, t1) := by
    show yearLoop [y1, y2, y3] t1 = (none, t1)
    simp only [yearLoop, h1, h2]
    cases hf : findFirst y3 none t1 with
    | none => rfl
    | some q =>
      obtain ⟨pre, mt, cap, post⟩ := q
      dsimp only
      cases hj : jsParseInt cap with
      | none => rfl
      | some yv =>
        dsimp only
        rw [if_neg (h3 pre mt cap post hf yv hj)]
  refine ⟨hys, ?_⟩
  show (yearStep (seasonStep (normalizeTitle t.data)).2).1 = none
  rw [← ht1, hys]

/-- Witness for the C4 theorem: the first bare four-digit run 0001 is out of
range, and the later valid run 2023 is never reached. -/
theorem c4_witness :
    yearStep "A 0001 2023".data = (none, "A 0001 2023".data) ∧
    (parseSeasonFromTitle "A 0001 2023").year = none := by
  refine c4_year_pattern_class "A 0001 2023" "A 0001 2023".data (by decide) (by decide)
    (by decide) ?_
  intro pre mt cap post hf yv hj
  rw [show findFirst y3 none "A 0001 2023".data =
      some ("A ".data, "0001".data, "0001".data, " 2023".data) from by decide] at hf
  simp only [Option.some.injEq, Prod.mk.injEq] at hf
  obtain ⟨hp1, hp2, hp3, hp4⟩ := hf
  subst hp3
  rw [show jsParseInt "0001".data = some 1 from by decide] at hj
  simp only [Option.some.injEq] at hj
  subst hj
  decide

theorem m1_ext_some (prev : Option Char) (s : List Char) (n : Nat) (cap : List Char)
    (h : m1 prev s = some (n, cap)) : ∃ v, sInner cap = some v := by
  unfold m1 at h
  repeat' split at h
  all_goals (try simp_all)
  all_goals (obtain ⟨hn, hcap⟩ := h; subst hcap)
  all_goals simp_all [sInner]

/-- C6: rule priority.  Whenever the bracket-wrapped Latin season pattern
matches anywhere in the normalized title (and the bare pattern also matches
somewhere), the season number comes from the bracket-wrapped rule, which has
index 0: the rule loop stops at the first rule, records its extracted value,
and later rules are never consulted. -/
theorem c6_bracket_priority (t : String) (pre mt cap post : List Char)
    (hbr : findFirst m1 none (normalizeTitle t.data) = some (pre, mt, cap, post))
    (_hbare : findFirst m2 none (normalizeTitle t.data) ≠ none) :
    ∃ v : Int, sInner cap = some v ∧
      seasonLoop 0 patterns (normalizeTitle t.data) = some ⟨0, v, pre, mt, cap, post⟩ ∧
      (parseSeasonFromTitle t).seasonNumber = some v := by
  obtain ⟨prev2, s2, n2, hm⟩ := findFirst_cap m1 none _ pre mt cap post hbr
  obtain ⟨v, hv⟩ := m1_ext_some prev2 s2 n2 cap hm
  have hsl : seasonLoop 0 patterns (normalizeTitle t.data) =
      some ⟨0, v, pre, mt, cap, post⟩ := by
    simp only [patterns, seasonLoop, hbr, hv]
  refine ⟨v, hv, hsl, ?_⟩
  show (seasonStep (normalizeTitle t.data)).1 = some v
  unfold seasonStep
  rw [hsl]

/-- Witness for the C6 theorem on a title carrying both a bracketed and a
bare Latin season marker: the bracketed value 2 wins over the bare 3. -/
theorem c6_witness :
    ∃ v : Int, sInner "S02".data = some v ∧
      seasonLoop 0 patterns (normalizeTitle "[S02] S03".data) =
        some ⟨0, v, [], "[S02]".data, "S02".data, " S03".data⟩ ∧
      (parseSeasonFromTitle "[S02] S03").seasonNumber = some v :=
  c6_bracket_priority "[S02] S03" [] "[S02]".data "S02".data " S03".data (by decide)
    (by decide)

/-- The nine single-digit Chinese numeral characters, in value order. -/
def zhDigit : Fin 9 → Char
  | 0 => '一'
  | 1 => '二'
  | 2 => '三'
  | 3 => '四'
  | 4 => '五'
  | 5 => '六'
  | 6 => '七'
  | 7 => '八'
  | 8 => '九'

/-- C5: the numeral converter is arithmetically correct on the supported
vocabulary: every single digit one through nine maps to its value, ten maps
to 10, ten followed by a unit digit maps to 10 plus the unit, a tens digit
followed by ten maps to ten times the digit, and a full two-part compound
maps to tens times ten plus units. -/
theorem c5_numeral_correct :
    ∀ i j : Fin 9,
    chineseNumberToInt [zhDigit i] = (i : Int) + 1 ∧
    chineseNumberToInt ['十'] = 10 ∧
    chineseNumberToInt ['十', zhDigit j] = 10 + ((j : Int) + 1) ∧
    chineseNumberToInt [zhDigit i, '十'] = ((i : Int) + 1) * 10 ∧
    chineseNumberToInt [zhDigit i, '十', zhDigit j] =
      ((i : Int) + 1) * 10 + ((j : Int) + 1) := by
  decide

/-- C9: totality.  Every input produces a well-formed record whose original
title is the verbatim input; in particular the empty string parses to the
record with empty clean title and absent season and year, and the numeral
converter is total as well (on the empty string it returns the lenient
default 1). -/
theorem c9_total :
    (∀ t : String, (parseSeasonFromTitle t).originalTitle = t) ∧
    parseSeasonFromTitle "" = ⟨"", none, none, ""⟩ ∧
    chineseNumberToInt [] = 1 :=
  ⟨fun _ => rfl, by decide, by decide⟩

/-- C10: the Chinese season and part patterns capture at most two characters
between the ordinal marker and the closer, so a three-character numeral like
twenty-one is never matched: the title consisting of that token alone parses
with no season and an unchanged clean title, even though the numeral
converter itself maps the three-character compound to 21. -/
theorem c10_capture_width :
    (∀ (closer : Char) (prev : Option Char) (s : List Char) (n : Nat) (cap : List Char),
      mZhBare closer prev s = some (n, cap) → cap.length ≤ 2) ∧
    (∀ (closer : Char) (prev : Option Char) (s : List Char) (n : Nat) (cap : List Char),
      mZhBr closer prev s = some (n, cap) → cap.length ≤ 2) ∧
    parseSeasonFromTitle "第二十一季" = ⟨"第二十一季", none, none, "第二十一季"⟩ ∧
    chineseNumberToInt "二十一".data = 21 := by
  refine ⟨?_, ?_, by decide, by decide⟩
  · intro closer prev s n cap h
    unfold mZhBare at h
    repeat' split at h
    all_goals (try simp_all)
    all_goals (obtain ⟨hn, hcap⟩ := h; subst hcap; simp)
  · intro closer prev s n cap h
    unfold mZhBr at h
    repeat' split at h
    all_goals (try simp_all)
    all_goals (obtain ⟨hn, hcap⟩ := h; subst hcap; simp)

/-- Witness for the C10 capture-width bound at a concrete two-character
match of the bare Chinese season rule. -/
theorem c10_witness : (['十', '一'] : List Char).length ≤ 2 :=
  c10_capture_width.1 '季' none "第十一季".data 4 ['十', '一'] (by decide)

/-- C7, counterexample: re-parsing the clean title of a successful parse can
find a second season token of the very rule that already fired.  On the
doubled-token input the bare Latin rule (index 1) fires on the first token,
the clean title is exactly the surviving second token, the same pattern
still matches the clean title, and a re-parse extracts a season again. -/
theorem c7_counterexample :
    seasonLoop 0 patterns (normalizeTitle "S1 S2".data) =
      some ⟨1, 1, [], "S1".data, "1".data, " S2".data⟩ ∧
    (parseSeasonFromTitle "S1 S2").cleanTitle = "S2" ∧
    findFirst m2 none (parseSeasonFromTitle "S1 S2").cleanTitle.data ≠ none ∧
    (parseSeasonFromTitle (parseSeasonFromTitle "S1 S2").cleanTitle).seasonNumber =
      some 2 :=
  ⟨by decide, by decide, by decide, by decide⟩

theorem seasonLoop_fired :
    ∀ (i : Nat) (ps : List SPattern) (t : List Char) (r : SMatch),
    seasonLoop i ps t = some r →
    i ≤ r.idx ∧ ∃ p, ps.get? (r.idx - i) = some p ∧ findFirst p.m none t ≠ none := by
  intro i ps
  induction ps generalizing i with
  | nil => intro t r h; simp [seasonLoop] at h
  | cons p ps ih =>
    intro t r h
    simp only [seasonLoop] at h
    split at h
    · rename_i pre mt cap post heq
      split at h
      · rename_i v hv
        cases h
        refine ⟨Nat.le_refl i, p, ?_, ?_⟩
        · simp
        · rw [heq]; simp
      · obtain ⟨hle, q, hq, hf⟩ := ih (i + 1) t r h
        refine ⟨Nat.le_of_succ_le hle, q, ?_, hf⟩
        have hsub : r.idx - i = (r.idx - (i + 1)) + 1 := by omega
        rw [hsub]
        simpa using hq
    · obtain ⟨hle, q, hq, hf⟩ := ih (i + 1) t r h
      refine ⟨Nat.le_of_succ_le hle, q, ?_, hf⟩
      have hsub : r.idx - i = (r.idx - (i + 1)) + 1 := by omega
      rw [hsub]
      simpa using hq

/-- C7, amended: re-parse idempotence of a fired rule holds only under side
conditions that real inputs can violate: if the fired rule's pattern has no
further match in the season-reduced title, the year extractor does not fire
on it, and the cleaner leaves it unchanged, then that rule's pattern does
not match the clean title and a re-parse cannot fire the same rule; without
these conditions a surviving duplicate token (see the counterexample) or a
token spliced together by a later deletion can make the same rule fire
again. -/
theorem c7_conditional_idempotence (t : String) (r : SMatch) (p : SPattern)
    (hsl : seasonLoop 0 patterns (normalizeTitle t.data) = some r)
    (hp : patterns.get? r.idx = some p)
    (hnomatch : findFirst p.m none (trim (r.pre ++ r.post)) = none)
    (hyear : yearStep (trim (r.pre ++ r.post)) = (none, trim (r.pre ++ r.post)))
    (hclean : cleanup (trim (r.pre ++ r.post)) = trim (r.pre ++ r.post)) :
    findFirst p.m none (parseSeasonFromTitle t).cleanTitle.data = none ∧
    ∀ r2 : SMatch,
      seasonLoop 0 patterns (normalizeTitle (parseSeasonFromTitle t).cleanTitle.data) =
        some r2 → r2.idx ≠ r.idx := by
  have hct : (parseSeasonFromTitle t).cleanTitle.data = trim (r.pre ++ r.post) := by
    show cleanup ((yearStep (seasonStep (normalizeTitle t.data)).2).2) = _
    unfold seasonStep
    rw [hsl]
    dsimp only
    rw [hyear]
    exact hclean
  constructor
  · rw [hct]; exact hnomatch
  · intro r2 h2 hidx
    rw [normalizeTitle_id _ (no_underscore_cleanTitle t)] at h2
    obtain ⟨hle, q, hq, hf⟩ := seasonLoop_fired 0 patterns _ r2 h2
    rw [Nat.sub_zero] at hq
    rw [hidx] at hq
    have hpq : some q = some p := hq.symm.trans hp
    have hqp : q = p := by injection hpq
    subst hqp
    apply hf
    rw [hct]
    exact hnomatch

/-- Witness for the conditional idempotence theorem at a parse where the
fired bare Latin rule has no second match and year and cleanup are inert. -/
theorem c7_witness :
    findFirst m2 none (parseSeasonFromTitle "Breaking Bad S01").cleanTitle.data = none ∧
    ∀ r2 : SMatch,
      seasonLoop 0 patterns
        (normalizeTitle (parseSeasonFromTitle "Breaking Bad S01").cleanTitle.data) =
        some r2 → r2.idx ≠ 1 :=
  c7_conditional_idempotence "Breaking Bad S01"
    ⟨1, 1, "Breaking Bad ".data, "S01".data, "01".data, []⟩
    ⟨m2, jsParseInt⟩ (by decide) rfl (by decide) (by decide) (by decide)

end SeasonParse

